import Mathlib

/-!
Formal model of `src/batch_run.py` (HCDP/batch_run_workflows).

The script drives a containerized task once per date, sequentially:
`main` reads a JSON configuration, iterates the explicit `dates` list and
then the `date_ranges` list (each range expanded by the generator
`generate_dates`), and for every date calls `run_containers`, which for
every configured task launches a docker container, waits for it, records
the container name and prunes the oldest recorded name once more than
`max_stored` names are retained.

Modelling conventions:
* Python `datetime` values produced by `strptime` are modelled by `Date`
  (year/month/day as `Int`); the chronological comparison
  `current_date <= end_date` is modelled by comparing `dateKey`, which
  orders valid dates exactly like the calendar does.
* `dateutil.relativedelta` is modelled by `addDelta` (calendar-aware
  months/years with day clamping, then weeks/days).
* The configurable `date_format` is abstracted as a `DateFormat`
  (a parse and a format function); `default_format` implements the
  default `"%Y-%m-%d"` concretely.
* `time_ns()` is modelled by a stream `times : Nat → Nat`, consumed one
  value per call; Python's decimal rendering of the integer is
  `natStrChars`.
* `subprocess.run(..., check=True)` calls are modelled by a `Launcher`
  oracle deciding whether each docker invocation succeeds; a failing call
  raises, modelled by an `Err` value that aborts all remaining work.
* The `while` loop of `generate_dates` is modelled with explicit fuel
  (`dateFuel`); for a step that strictly advances the date the fuel never
  runs out, which is the regime in which the Python loop terminates.
* Side effects (the announcement `print`, `docker run/wait/rm`) are
  recorded in an event trace inside the state `St`.
-/

namespace BatchRun

/-! ## Decimal rendering of a natural number (Python `str`/f-string on int) -/

/-- The character for a single decimal digit. -/
def digitChar (n : Nat) : Char :=
  match n with
  | 0 => '0'
  | 1 => '1'
  | 2 => '2'
  | 3 => '3'
  | 4 => '4'
  | 5 => '5'
  | 6 => '6'
  | 7 => '7'
  | 8 => '8'
  | 9 => '9'
  | _ => '0'

/-- The decimal digits of `n`, most significant first, with explicit fuel
(structural recursion so that values compute by `decide`/`rfl`); the fuel
is sufficient whenever `n ≤ fuel`. -/
def natDigitsAux : Nat → Nat → List Nat
  | 0, n => [n % 10]
  | fuel + 1, n => if n < 10 then [n] else natDigitsAux fuel (n / 10) ++ [n % 10]

/-- The decimal digits of `n`, most significant first. -/
def natDigitsList (n : Nat) : List Nat :=
  natDigitsAux n n

/-- The decimal rendering of `n` as characters (Python `str(n)` for `n ≥ 0`). -/
def natStrChars (n : Nat) : List Char :=
  (natDigitsList n).map digitChar

/-! ## Dates (`datetime` restricted to the calendar part) -/

/-- A calendar date as carried by a Python `datetime`. -/
structure Date where
  year : Int
  month : Int
  day : Int
deriving DecidableEq

/-- Gregorian leap-year test (as in Python's `calendar`/`datetime`). -/
def isLeap (y : Int) : Bool :=
  (y % 4 == 0 && y % 100 != 0) || y % 400 == 0

/-- Number of days of month `m` of year `y`. -/
def daysInMonth (y m : Int) : Int :=
  if m = 2 then (if isLeap y then 29 else 28)
  else if m = 4 ∨ m = 6 ∨ m = 9 ∨ m = 11 then 30
  else 31

/-- The dates representable by a Python `datetime` (field ranges valid). -/
def ValidDate (d : Date) : Prop :=
  1 ≤ d.month ∧ d.month ≤ 12 ∧ 1 ≤ d.day ∧ d.day ≤ daysInMonth d.year d.month

instance (d : Date) : Decidable (ValidDate d) := by
  unfold ValidDate; exact inferInstance

/-- A key that orders valid dates chronologically: on valid dates,
`dateKey a ≤ dateKey b` holds exactly when the `datetime` comparison
`a <= b` does. -/
def dateKey (d : Date) : Int :=
  d.year * 1000 + d.month * 50 + d.day

/-- The calendar successor of a date. -/
def nextDay (d : Date) : Date :=
  if d.day < daysInMonth d.year d.month then ⟨d.year, d.month, d.day + 1⟩
  else if d.month < 12 then ⟨d.year, d.month + 1, 1⟩
  else ⟨d.year + 1, 1, 1⟩

/-- The calendar predecessor of a date. -/
def prevDay (d : Date) : Date :=
  if 1 < d.day then ⟨d.year, d.month, d.day - 1⟩
  else if 1 < d.month then ⟨d.year, d.month - 1, daysInMonth d.year (d.month - 1)⟩
  else ⟨d.year - 1, 12, 31⟩

/-- Add `ys` years and `ms` months, clamping the day-of-month, exactly as
`relativedelta` does (Python `//` and `%` are floor operations, matched by
`Int` division and modulo for the positive divisor 12). -/
def addMonths (d : Date) (ys ms : Int) : Date :=
  let tm : Int := (d.year + ys) * 12 + (d.month - 1) + ms
  let y := tm / 12
  let m := tm % 12 + 1
  ⟨y, m, min d.day (daysInMonth y m)⟩

/-- Add `n` calendar days (`relativedelta`'s final `timedelta` step). -/
def addDays (d : Date) (n : Int) : Date :=
  if 0 ≤ n then nextDay^[n.toNat] d else prevDay^[(-n).toNat] d

/-- The step components accepted by the script's `delta` configuration and
forwarded to `relativedelta(**delta)` (absent JSON keys default to 0). -/
structure Delta where
  years : Int
  months : Int
  weeks : Int
  days : Int
deriving DecidableEq

/-- `dt + relativedelta(**delta)`: years and months first (with day
clamping), then weeks and days. -/
def addDelta (d : Date) (δ : Delta) : Date :=
  addDays (addMonths d δ.years δ.months) (δ.weeks * 7 + δ.days)

/-! ## Parsing and formatting in the default format `"%Y-%m-%d"` -/

/-- Python's `str.split(sep)` for a single-character separator. -/
def splitChar (sep : Char) : List Char → List (List Char)
  | [] => [[]]
  | c :: rest =>
    match splitChar sep rest with
    | [] => [[]]
    | h :: t => if c = sep then [] :: h :: t else (c :: h) :: t

/-- The value of a decimal digit character, if it is one. -/
def digitVal (c : Char) : Option Nat :=
  if '0' ≤ c ∧ c ≤ '9' then some (c.toNat - 48) else none

/-- Reads an all-digits character list as a number. -/
def readNatAux : List Char → Nat → Option Nat
  | [], acc => some acc
  | c :: t, acc =>
    match digitVal c with
    | some v => readNatAux t (acc * 10 + v)
    | none => none

/-- Reads a nonempty all-digits character list as a number. -/
def readNat (l : List Char) : Option Nat :=
  match l with
  | [] => none
  | _ :: _ => readNatAux l 0

/-- `datetime.strptime(s, "%Y-%m-%d")`, returning `none` where Python
raises `ValueError`: the string must be a 4-digit year, a 1- or 2-digit
month and a 1- or 2-digit day separated by `-`, and denote a real
calendar date with positive year. -/
def parseYMD (s : String) : Option Date :=
  match splitChar '-' s.data with
  | [ys, ms, ds] =>
    if ys.length = 4 ∧ (ms.length = 1 ∨ ms.length = 2) ∧ (ds.length = 1 ∨ ds.length = 2) then
      match readNat ys, readNat ms, readNat ds with
      | some y, some m, some d =>
        if 1 ≤ (y : Int) ∧ 1 ≤ (m : Int) ∧ (m : Int) ≤ 12 ∧ 1 ≤ (d : Int) ∧
            (d : Int) ≤ daysInMonth (y : Int) (m : Int) then
          some ⟨(y : Int), (m : Int), (d : Int)⟩
        else none
      | _, _, _ => none
    else none
  | _ => none

/-- Left-pads a character list to width `w` (strftime zero padding). -/
def padLeft (c : Char) (w : Nat) (l : List Char) : List Char :=
  List.replicate (w - l.length) c ++ l

/-- `d.strftime("%Y-%m-%d")`: zero-padded year, month and day joined by `-`. -/
def formatYMD (d : Date) : String :=
  ⟨padLeft '0' 4 (natStrChars d.year.toNat) ++
    '-' :: (padLeft '0' 2 (natStrChars d.month.toNat) ++
      '-' :: padLeft '0' 2 (natStrChars d.day.toNat))⟩

/-- The configured `date_format`, abstracted to the two operations the
script applies to it (`strptime` and `strftime`). -/
structure DateFormat where
  parse : String → Option Date
  format : Date → String

/-- The script's default `date_format`, `"%Y-%m-%d"`. -/
def default_format : DateFormat :=
  ⟨parseYMD, formatYMD⟩

/-- Equality of `Except` results is decidable when it is for both sides. -/
instance {ε α : Type} [DecidableEq ε] [DecidableEq α] : DecidableEq (Except ε α) :=
  fun a b =>
    match a, b with
    | .ok x, .ok y =>
      if h : x = y then isTrue (by rw [h]) else isFalse (fun hc => h (Except.ok.inj hc))
    | .error x, .error y =>
      if h : x = y then isTrue (by rw [h]) else isFalse (fun hc => h (Except.error.inj hc))
    | .ok _, .error _ => isFalse (fun hc => Except.noConfusion hc)
    | .error _, .ok _ => isFalse (fun hc => Except.noConfusion hc)

/-! ## Errors -/

/-- The failures the script can abort with: `ValueError` from `strptime`
(`invalidDateFormat`), `ValueError` from unpacking a `split('_')` of the
wrong size (`unpackError`), and `CalledProcessError` from a failing
`docker` invocation (`launchFailure`). -/
inductive Err where
  | invalidDateFormat
  | unpackError
  | launchFailure
deriving DecidableEq

/-- `parse_date_range`: `start_date, end_date = date_range.split('_')`;
the unpacking raises unless the split yields exactly two parts. -/
def parse_date_range (r : String) : Except Err (String × String) :=
  match splitChar '_' r.data with
  | [a, b] => .ok (⟨a⟩, ⟨b⟩)
  | _ => .error .unpackError

/-! ## Date-range expansion (`generate_dates`) -/

/-- The loop of `generate_dates`: while `current_date <= end_date`, yield
the formatted current date and advance by the delta. The explicit fuel
only bounds the iteration count; when the delta strictly advances the
date (the regime where the Python loop terminates) `dateFuel` is always
sufficient, so the fuel never alters the produced list. -/
def genDatesAux (fmt : DateFormat) (δ : Delta) (e : Date) : Nat → Date → List String
  | 0, _ => []
  | fuel + 1, cur =>
    if dateKey cur ≤ dateKey e then fmt.format cur :: genDatesAux fmt δ e fuel (addDelta cur δ)
    else []

/-- Fuel sufficient for `genDatesAux` when each step advances `dateKey`. -/
def dateFuel (s e : Date) : Nat :=
  (dateKey e + 1 - dateKey s).toNat

/-- `generate_dates(start_date, end_date, delta, date_format)`: parse both
bounds (a `strptime` failure aborts before any date is produced), then
yield the stepped dates from `start` while they do not exceed `end`. -/
def generate_dates (fmt : DateFormat) (start_s end_s : String) (δ : Delta) :
    Except Err (List String) :=
  match fmt.parse start_s with
  | none => .error .invalidDateFormat
  | some s =>
    match fmt.parse end_s with
    | none => .error .invalidDateFormat
    | some e => .ok (genDatesAux fmt δ e (dateFuel s e) s)

/-! ## Tasks, configuration, launcher, state -/

/-- The `envs` payload of one `run_data` entry: optional literal
variables (a JSON object, in insertion order) and optional env files.
The first field models the JSON key `"variables"` (`variables` is a
reserved word in Lean, so the field carries the name of the script's
local `variable_envs`). -/
structure Envs where
  variable_envs : Option (List (String × String))
  files : Option (List String)
deriving DecidableEq

/-- One `run_data` entry: a container image and its environment payload. -/
structure RunSpec where
  container : String
  envs : Envs
deriving DecidableEq

/-- The JSON configuration document, with the script's defaults made
explicit: `max_stored` absent is the `inf` sentinel, modelled as `none`. -/
structure Config where
  run_data : List RunSpec
  dates : List String
  date_ranges : List String
  delta : Delta
  date_format : DateFormat
  max_stored : Option Nat

/-- The observable actions of the script, in program order: the
announcement `print`, and the three `docker` invocations. -/
inductive Event where
  | announce (container : String) (date : String)
  | launch (name : String) (args : List String)
  | wait (name : String)
  | remove (name : String)
deriving DecidableEq

/-- The mutable state threaded through a batch: the retained container
names (`container_ids`), the number of `time_ns()` calls made so far, and
the event trace. -/
structure St where
  containerIds : List String
  nCalls : Nat
  events : List Event
deriving DecidableEq

/-- The external container runtime: whether each `docker run`, `docker
wait` and `docker rm` invocation succeeds. -/
structure Launcher where
  launchOk : List String → Bool
  waitOk : String → Bool
  removeOk : String → Bool

/-- Concatenates the lists `f a` for `a` in the input, in order (the
nested accumulation loops of the script). -/
def flatMapL (f : α → List β) : List α → List β
  | [] => []
  | a :: t => f a ++ flatMapL f t

/-- The `env_data` argument list of `run_containers`: `-e key=value` for
each literal variable (in order), then `--env-file=path` for each file. -/
def envArgs (e : Envs) : List String :=
  (match e.variable_envs with
   | some vars => flatMapL (fun p => ["-e", p.1 ++ "=" ++ p.2]) vars
   | none => []) ++
  (match e.files with
   | some fs => fs.map (fun f => "--env-file=" ++ f)
   | none => [])

/-- The container name `f"batch_{date}_{time_ns()}"`. -/
def containerName (date : String) (t : Nat) : String :=
  ⟨"batch_".data ++ date.data ++ '_' :: natStrChars t⟩

/-- The full `docker run` argument list composed by `run_containers`. -/
def composeArgs (name date : String) (data : RunSpec) : List String :=
  ["docker", "run", "-d", "--name=" ++ name, "-e", "CUSTOM_DATE=" ++ date] ++
    envArgs data.envs ++ [data.container]

/-- The retention test `len(container_ids) > max_containers`; with the
`inf` sentinel (`none`) it is always false. -/
def overMax (n : Nat) (maxC : Option Nat) : Bool :=
  match maxC with
  | none => false
  | some m => m < n

/-- The body of `run_containers` for a single `run_data` entry: announce;
then, unless dry-run, launch (consuming one `time_ns()` value), wait,
record the name, and prune the oldest recorded name when over the cap.
The first failing docker call aborts with `launchFailure`; the state at
that point (events already emitted, names already recorded or pruned) is
returned alongside the error. -/
def runSpecStep (L : Launcher) (times : Nat → Nat) (dry : Bool) (maxC : Option Nat)
    (date : String) (data : RunSpec) (st : St) : St × Option Err :=
  let ann : Event := .announce data.container date
  if dry then
    ({ st with events := st.events ++ [ann] }, none)
  else
    let name := containerName date (times st.nCalls)
    let args := composeArgs name date data
    if L.launchOk args = false then
      (⟨st.containerIds, st.nCalls + 1, st.events ++ [ann, .launch name args]⟩,
        some .launchFailure)
    else if L.waitOk name = false then
      (⟨st.containerIds, st.nCalls + 1, st.events ++ [ann, .launch name args, .wait name]⟩,
        some .launchFailure)
    else
      let ids := st.containerIds ++ [name]
      if overMax ids.length maxC then
        (⟨ids.tail, st.nCalls + 1,
            st.events ++ [ann, .launch name args, .wait name, .remove (ids.headD "")]⟩,
          if L.removeOk (ids.headD "") then none else some .launchFailure)
      else
        (⟨ids, st.nCalls + 1, st.events ++ [ann, .launch name args, .wait name]⟩, none)

/-- `run_containers(date, run_data, dry_run, container_ids, max_containers)`:
process each `run_data` entry in order, stopping at the first failure. -/
def run_containers (L : Launcher) (times : Nat → Nat) (dry : Bool) (maxC : Option Nat)
    (date : String) : List RunSpec → St → St × Option Err
  | [], st => (st, none)
  | data :: rest, st =>
    match runSpecStep L times dry maxC date data st with
    | (st', none) => run_containers L times dry maxC date rest st'
    | (st', some e) => (st', some e)

/-- The per-date loops of `main`: call `run_containers` for each date in
order, stopping at the first failure. -/
def runDates (L : Launcher) (times : Nat → Nat) (dry : Bool) (maxC : Option Nat)
    (specs : List RunSpec) : List String → St → St × Option Err
  | [], st => (st, none)
  | d :: ds, st =>
    match run_containers L times dry maxC d specs st with
    | (st', none) => runDates L times dry maxC specs ds st'
    | (st', some e) => (st', some e)

/-- One iteration of `main`'s `date_ranges` loop: unpack the range string,
expand it (both may raise, before any run of this range starts), then run
every expanded date. -/
def processRange (L : Launcher) (times : Nat → Nat) (dry : Bool) (maxC : Option Nat)
    (specs : List RunSpec) (δ : Delta) (fmt : DateFormat) (r : String) (st : St) :
    St × Option Err :=
  match parse_date_range r with
  | .error e => (st, some e)
  | .ok (s, e) =>
    match generate_dates fmt s e δ with
    | .error e2 => (st, some e2)
    | .ok ds => runDates L times dry maxC specs ds st

/-- `main`'s `date_ranges` loop, stopping at the first failure. -/
def processRanges (L : Launcher) (times : Nat → Nat) (dry : Bool) (maxC : Option Nat)
    (specs : List RunSpec) (δ : Delta) (fmt : DateFormat) :
    List String → St → St × Option Err
  | [], st => (st, none)
  | r :: rs, st =>
    match processRange L times dry maxC specs δ fmt r st with
    | (st', none) => processRanges L times dry maxC specs δ fmt rs st'
    | (st', some e) => (st', some e)

/-- `main` after configuration loading: starting from an empty
`container_ids` list, run the explicit dates first and then the ranges.
The returned `Option Err` is `some` exactly when the process dies with an
unhandled exception (non-zero exit status); the returned state is the
state at that point. -/
def runMain (L : Launcher) (times : Nat → Nat) (cfg : Config) (dry : Bool) :
    St × Option Err :=
  match runDates L times dry cfg.max_stored cfg.run_data cfg.dates ⟨[], 0, []⟩ with
  | (st, none) =>
    processRanges L times dry cfg.max_stored cfg.run_data cfg.delta cfg.date_format
      cfg.date_ranges st
  | (st, some e) => (st, some e)

/-! ## Spec-side date order and trace observations -/

/-- The expansions of the configured ranges, in listed order. -/
def expandRanges (fmt : DateFormat) (δ : Delta) : List String → Except Err (List String)
  | [] => .ok []
  | r :: rs =>
    match parse_date_range r with
    | .error e => .error e
    | .ok (s, e) =>
      match generate_dates fmt s e δ with
      | .error e2 => .error e2
      | .ok ds =>
        match expandRanges fmt δ rs with
        | .error e3 => .error e3
        | .ok rest => .ok (ds ++ rest)

/-- Mirrors the spec's description of the date order: the explicit dates
first, in listed order, then each range descriptor's dates in step order,
ranges in listed order. -/
def specOrderedDates (cfg : Config) : Except Err (List String) :=
  match expandRanges cfg.date_format cfg.delta cfg.date_ranges with
  | .error e => .error e
  | .ok rds => .ok (cfg.dates ++ rds)

/-- Mirrors the spec's description of the per-date order: for each date,
every `run_data` entry in listed order before advancing to the next
date. Pairs are `(container, date)`. -/
def plannedPairs (cfg : Config) (ds : List String) : List (String × String) :=
  flatMapL (fun d => cfg.run_data.map (fun r => (r.container, d))) ds

/-- The `(container, date)` announcement lines of a trace, in order. -/
def announcesOf : List Event → List (String × String)
  | [] => []
  | .announce c d :: t => (c, d) :: announcesOf t
  | .launch _ _ :: t => announcesOf t
  | .wait _ :: t => announcesOf t
  | .remove _ :: t => announcesOf t

/-- The names passed to `docker run --name=` in a trace, in order. -/
def launchNamesOf : List Event → List String
  | [] => []
  | .launch n _ :: t => n :: launchNamesOf t
  | .announce _ _ :: t => launchNamesOf t
  | .wait _ :: t => launchNamesOf t
  | .remove _ :: t => launchNamesOf t

/-- The names passed to `docker rm` in a trace, in order. -/
def removesOf : List Event → List String
  | [] => []
  | .remove n :: t => n :: removesOf t
  | .announce _ _ :: t => removesOf t
  | .launch _ _ :: t => removesOf t
  | .wait _ :: t => removesOf t

/-- A substring test: `hasSegment hay needle` is true when `needle`
occurs contiguously inside `hay`. -/
def segStart : List Char → List Char → Bool
  | _, [] => true
  | [], _ :: _ => false
  | a :: as, b :: bs => a = b && segStart as bs

/-- Whether `needle` occurs contiguously inside `hay`. -/
def hasSegment : List Char → List Char → Bool
  | [], needle => needle.isEmpty
  | h :: t, needle => segStart (h :: t) needle || hasSegment t needle

/-! ## Concrete scenarios used by the claims -/

/-- A launcher for which every docker invocation succeeds. -/
def allOk : Launcher :=
  ⟨fun _ => true, fun _ => true, fun _ => true⟩

/-- A step of one day, the script's default `delta`. -/
def deltaDays1 : Delta := ⟨0, 0, 0, 1⟩

/-- A step of two days. -/
def deltaDays2 : Delta := ⟨0, 0, 0, 2⟩

/-- A task with no environment payload. -/
def bareSpec (c : String) : RunSpec := ⟨c, ⟨none, none⟩⟩

/-- Three explicit dates, one task, retention cap 2. -/
def cfgRetention : Config :=
  ⟨[bareSpec "img"], ["d1", "d2", "d3"], [], deltaDays1, default_format, some 2⟩

/-- Five explicit dates and one task: five (date, RunSpec) units. -/
def cfgFive : Config :=
  ⟨[bareSpec "img"], ["d1", "d2", "d3", "d4", "d5"], [], deltaDays1, default_format, none⟩

/-- A launcher whose `docker run` fails exactly for the date `d2`. -/
def failOnD2 : Launcher :=
  ⟨fun args => !(args.contains "CUSTOM_DATE=d2"), fun _ => true, fun _ => true⟩

/-- One good explicit date followed by a range whose start bound does not
parse in the default format. -/
def cfgBadRange : Config :=
  ⟨[bareSpec "img"], ["2024-01-01"], ["bad_2024-01-02"], deltaDays1, default_format, none⟩

/-- Two tasks on a single date. -/
def cfgTwoSpecs : Config :=
  ⟨[bareSpec "imgA", bareSpec "imgB"], ["2024-01-01"], [], deltaDays1, default_format, none⟩

/-- Two explicit dates and one two-day range, with two tasks: the spec's
`["A","B"]` + `["C","D"]` ordering example. -/
def cfgMix : Config :=
  ⟨[bareSpec "imgA", bareSpec "imgB"], ["A", "B"], ["2024-07-15_2024-07-16"],
    deltaDays1, default_format, none⟩

/-- A launcher whose `docker wait` fails exactly for the run named
`batch_d2_1` (the second unit of a batch over `d1, d2, ...` with the
identity timestamp stream). -/
def failWaitD2 : Launcher :=
  ⟨fun _ => true, fun name => !(name == "batch_d2_1"), fun _ => true⟩

/-- A launcher whose `docker rm` always fails. -/
def failRemove : Launcher :=
  ⟨fun _ => true, fun _ => true, fun _ => false⟩

/-- Three explicit dates, one task, retention cap 1: completing the
second run pushes the history over the cap and triggers a removal. -/
def cfgRetention1 : Config :=
  ⟨[bareSpec "img"], ["d1", "d2", "d3"], [], deltaDays1, default_format, some 1⟩

/-- A launcher whose `docker run` fails exactly for the run named
`batch_d_1` (the second launch of a batch on the single date `d` with
the identity timestamp stream). -/
def failSecondLaunch : Launcher :=
  ⟨fun args => !(args.contains "--name=batch_d_1"), fun _ => true, fun _ => true⟩

/-- Invariant of the run-identifier scheme: every name handed to `docker
run --name=` so far was built by `containerName` from some date and one
of the `time_ns` values already consumed, and no name repeats. -/
def NamesInv (times : Nat → Nat) (st : St) : Prop :=
  (∀ n ∈ launchNamesOf st.events, ∃ d k, k < st.nCalls ∧ n = containerName d (times k)) ∧
  (launchNamesOf st.events).Nodup

end BatchRun

namespace BatchRun

/-! ## Lemmas: decimal rendering -/

/-- Reading the rendered digits back (most significant first) recovers the
number, provided the fuel covers it. -/
theorem natDigitsAux_decode :
    ∀ fuel n, n ≤ fuel → (natDigitsAux fuel n).foldl (fun a d => a * 10 + d) 0 = n := by
  intro fuel
  induction fuel with
  | zero =>
    intro n hn
    interval_cases n
    simp [natDigitsAux]
  | succ f ih =>
    intro n hn
    rw [natDigitsAux]
    by_cases h : n < 10
    · simp [h]
    · rw [if_neg h, List.foldl_append, ih (n / 10) (by omega)]
      simp
      omega

/-- Decoding the digit list of `n` yields `n`. -/
theorem natDigitsList_decode (n : Nat) :
    (natDigitsList n).foldl (fun a d => a * 10 + d) 0 = n :=
  natDigitsAux_decode n n (Nat.le_refl n)

/-- Distinct numbers have distinct digit lists. -/
theorem natDigitsList_inj (a b : Nat) (h : natDigitsList a = natDigitsList b) : a = b := by
  have ha := natDigitsList_decode a
  rw [h, natDigitsList_decode] at ha
  omega

/-- Every produced digit is below 10. -/
theorem natDigitsAux_lt :
    ∀ fuel n, ∀ d ∈ natDigitsAux fuel n, d < 10 := by
  intro fuel
  induction fuel with
  | zero =>
    intro n d hd
    simp [natDigitsAux] at hd
    omega
  | succ f ih =>
    intro n d hd
    rw [natDigitsAux] at hd
    by_cases h : n < 10
    · rw [if_pos h] at hd
      simp at hd
      omega
    · rw [if_neg h] at hd
      rcases List.mem_append.mp hd with h1 | h2
      · exact ih (n / 10) d h1
      · simp at h2
        omega

/-- A digit character is never an underscore. -/
theorem digitChar_ne_underscore (n : Nat) : digitChar n ≠ '_' := by
  unfold digitChar
  split <;> decide

/-- On digits, `digitChar` is injective. -/
theorem digitChar_inj : ∀ a < 10, ∀ b < 10, digitChar a = digitChar b → a = b := by
  decide

/-- No character of a decimal rendering is an underscore. -/
theorem natStrChars_ne_underscore (n : Nat) : ∀ c ∈ natStrChars n, c ≠ '_' := by
  intro c hc
  obtain ⟨d, _, hd⟩ := List.mem_map.mp hc
  rw [← hd]
  exact digitChar_ne_underscore d

/-- Mapping `digitChar` over digit lists is injective. -/
theorem map_digitChar_inj :
    ∀ l1 l2 : List Nat, (∀ d ∈ l1, d < 10) → (∀ d ∈ l2, d < 10) →
      l1.map digitChar = l2.map digitChar → l1 = l2 := by
  intro l1
  induction l1 with
  | nil =>
    intro l2 _ _ h
    cases l2 with
    | nil => rfl
    | cons b t => simp at h
  | cons a t1 ih =>
    intro l2 h1 h2 h
    cases l2 with
    | nil => simp at h
    | cons b t2 =>
      simp only [List.map_cons, List.cons.injEq] at h
      have hab : a = b :=
        digitChar_inj a (h1 a (by simp)) b (h2 b (by simp)) h.1
      have ht : t1 = t2 :=
        ih t2 (fun d hd => h1 d (by simp [hd])) (fun d hd => h2 d (by simp [hd])) h.2
      rw [hab, ht]

/-- Decimal renderings are injective. -/
theorem natStrChars_inj (a b : Nat) (h : natStrChars a = natStrChars b) : a = b :=
  natDigitsList_inj a b
    (map_digitChar_inj (natDigitsList a) (natDigitsList b)
      (natDigitsAux_lt a a) (natDigitsAux_lt b b) h)

/-! ## Lemmas: the suffix after the last separator -/

/-- `takeWhile` runs through a block the predicate accepts and stops at
the separator. -/
theorem takeWhile_append_sep (p : Char → Bool) (sep : Char) (hsep : p sep = false) :
    ∀ a b : List Char, (∀ c ∈ a, p c = true) → ((a ++ sep :: b).takeWhile p) = a := by
  intro a
  induction a with
  | nil =>
    intro b _
    simp [List.takeWhile, hsep]
  | cons x t ih =>
    intro b ha
    simp only [List.cons_append, List.takeWhile]
    rw [ha x (by simp)]
    simp [ih b (fun c hc => ha c (by simp [hc]))]

/-- Two decompositions around a separator whose suffixes are free of the
separator have equal suffixes. -/
theorem sep_suffix_eq (sep : Char) (l1 l2 r1 r2 : List Char)
    (h1 : ∀ c ∈ r1, c ≠ sep) (h2 : ∀ c ∈ r2, c ≠ sep)
    (h : l1 ++ sep :: r1 = l2 ++ sep :: r2) : r1 = r2 := by
  have hrev : r1.reverse ++ sep :: l1.reverse = r2.reverse ++ sep :: l2.reverse := by
    have := congrArg List.reverse h
    simpa [List.reverse_append] using this
  have hp : ∀ r : List Char, (∀ c ∈ r, c ≠ sep) →
      ((r.reverse ++ sep :: l1.reverse).takeWhile (fun c => c != sep)) = r.reverse := by
    intro r hr
    exact takeWhile_append_sep (fun c => c != sep) sep (by simp) r.reverse l1.reverse
      (fun c hc => by simpa using hr c (List.mem_reverse.mp hc))
  have t1 := hp r1 h1
  have t2 : ((r2.reverse ++ sep :: l2.reverse).takeWhile (fun c => c != sep)) = r2.reverse :=
    takeWhile_append_sep (fun c => c != sep) sep (by simp) r2.reverse l2.reverse
      (fun c hc => by simpa using h2 c (List.mem_reverse.mp hc))
  have := congrArg (List.takeWhile (fun c => c != sep)) hrev
  rw [t1, t2] at this
  have := congrArg List.reverse this
  simpa using this

/-- Equal container names can only come from equal `time_ns` values: the
timestamp is the digit block after the last underscore. -/
theorem containerName_inj (d1 d2 : String) (t1 t2 : Nat)
    (h : containerName d1 t1 = containerName d2 t2) : t1 = t2 := by
  have hdata : "batch_".data ++ d1.data ++ '_' :: natStrChars t1
      = "batch_".data ++ d2.data ++ '_' :: natStrChars t2 := congrArg String.data h
  have h' : ("batch_".data ++ d1.data) ++ '_' :: natStrChars t1
      = ("batch_".data ++ d2.data) ++ '_' :: natStrChars t2 := by
    simpa [List.append_assoc] using hdata
  exact natStrChars_inj t1 t2
    (sep_suffix_eq '_' ("batch_".data ++ d1.data) ("batch_".data ++ d2.data)
      (natStrChars t1) (natStrChars t2)
      (natStrChars_ne_underscore t1) (natStrChars_ne_underscore t2) h')

/-! ## Lemmas: calendar arithmetic -/

/-- Bounds for the length of a month. -/
theorem daysInMonth_bounds (y m : Int) (_h1 : 1 ≤ m) (_h2 : m ≤ 12) :
    28 ≤ daysInMonth y m ∧ daysInMonth y m ≤ 31 := by
  unfold daysInMonth
  split_ifs <;> omega

/-- Stepping to the next day stays valid and strictly increases the key. -/
theorem nextDay_step (c : Date) (h : ValidDate c) :
    ValidDate (nextDay c) ∧ dateKey c < dateKey (nextDay c) := by
  obtain ⟨h1, h2, h3, h4⟩ := h
  have hb := daysInMonth_bounds c.year c.month h1 h2
  unfold nextDay ValidDate dateKey
  split_ifs with hd hm
  · simp only
    omega
  · have hb2 := daysInMonth_bounds c.year (c.month + 1) (by omega) (by omega)
    simp only
    omega
  · have hb3 := daysInMonth_bounds (c.year + 1) 1 (by omega) (by omega)
    simp only
    omega

/-- Adding zero months is the identity on valid dates. -/
theorem addMonths_zero (c : Date) (h : ValidDate c) : addMonths c 0 0 = c := by
  obtain ⟨h1, h2, h3, h4⟩ := h
  unfold addMonths
  have hy : ((c.year + 0) * 12 + (c.month - 1) + 0) / 12 = c.year := by omega
  have hm : ((c.year + 0) * 12 + (c.month - 1) + 0) % 12 + 1 = c.month := by omega
  simp only [hy, hm]
  cases c with
  | mk y m d =>
    simp only [Date.mk.injEq]
    refine ⟨trivial, trivial, ?_⟩
    simp only at h3 h4 ⊢
    omega

/-- The default one-day step: valid dates stay valid and strictly
advance. -/
theorem stepOneDay (c : Date) (h : ValidDate c) :
    ValidDate (addDelta c deltaDays1) ∧ dateKey c < dateKey (addDelta c deltaDays1) := by
  have heq : addDelta c deltaDays1 = nextDay c := by
    unfold addDelta deltaDays1
    rw [addMonths_zero c h]
    norm_num [addDays]
  rw [heq]
  exact nextDay_step c h

/-- A successfully parsed `%Y-%m-%d` string denotes a valid date. -/
theorem parseYMD_valid (s : String) (d : Date) (h : parseYMD s = some d) : ValidDate d := by
  unfold parseYMD at h
  split at h
  · split_ifs at h
    split at h
    · split_ifs at h with hv
      cases h
      exact ⟨hv.2.1, hv.2.2.1, hv.2.2.2.1, hv.2.2.2.2⟩
    · cases h
  · cases h

end BatchRun

namespace BatchRun

/-! ## Lemmas: the expansion loop -/

/-- Along iterated steps of a date-advancing delta, validity is kept and
the key never decreases. -/
theorem iterate_step (δ : Delta)
    (H : ∀ c, ValidDate c → ValidDate (addDelta c δ) ∧ dateKey c < dateKey (addDelta c δ)) :
    ∀ (k : Nat) (c : Date), ValidDate c →
      ValidDate ((fun x => addDelta x δ)^[k] c) ∧
        dateKey c ≤ dateKey ((fun x => addDelta x δ)^[k] c) := by
  intro k
  induction k with
  | zero =>
    intro c hc
    rw [Function.iterate_zero, id_eq]
    exact ⟨hc, le_refl _⟩
  | succ n ih =>
    intro c hc
    obtain ⟨hv, hk⟩ := H c hc
    obtain ⟨hv2, hk2⟩ := ih (addDelta c δ) hv
    rw [Function.iterate_succ_apply]
    exact ⟨hv2, by omega⟩

/-- If some number of steps from `cur` lands exactly on `e`, then the
formatted `e` appears in the loop's output, for any sufficient fuel. -/
theorem mem_genDatesAux (fmt : DateFormat) (δ : Delta) (e : Date)
    (H : ∀ c, ValidDate c → ValidDate (addDelta c δ) ∧ dateKey c < dateKey (addDelta c δ)) :
    ∀ (k : Nat) (cur : Date) (fuel : Nat), ValidDate cur →
      (fun x => addDelta x δ)^[k] cur = e → dateFuel cur e ≤ fuel →
      fmt.format e ∈ genDatesAux fmt δ e fuel cur := by
  intro k
  induction k with
  | zero =>
    intro cur fuel hv hit hfuel
    simp only [Function.iterate_zero, id_eq] at hit
    subst hit
    have h1 : dateFuel cur cur = 1 := by
      unfold dateFuel
      omega
    rw [h1] at hfuel
    cases fuel with
    | zero => omega
    | succ f =>
      rw [genDatesAux, if_pos (le_refl _)]
      exact List.mem_cons_self _ _
  | succ n ih =>
    intro cur fuel hv hit hfuel
    obtain ⟨hv1, hk1⟩ := H cur hv
    rw [Function.iterate_succ_apply] at hit
    have hle : dateKey (addDelta cur δ) ≤ dateKey e := by
      have := (iterate_step δ H n (addDelta cur δ) hv1).2
      rw [hit] at this
      exact this
    have hcur : dateKey cur ≤ dateKey e := by omega
    have hf1 : 1 ≤ dateFuel cur e := by
      unfold dateFuel
      omega
    cases fuel with
    | zero => omega
    | succ f =>
      rw [genDatesAux, if_pos hcur]
      refine List.mem_cons_of_mem _ (ih (addDelta cur δ) f hv1 hit ?_)
      unfold dateFuel at hfuel ⊢
      omega

/-- CLAIM C5: for every range descriptor whose bounds both parse and
whose start lies chronologically after its end, the expansion is the
empty sequence and no error is raised. -/
theorem claim5_reversed_range_empty (fmt : DateFormat) (s e : String) (ds de : Date)
    (δ : Delta) (hs : fmt.parse s = some ds) (he : fmt.parse e = some de)
    (hlt : dateKey de < dateKey ds) :
    generate_dates fmt s e δ = .ok [] := by
  have h0 : dateFuel ds de = 0 := by
    unfold dateFuel
    omega
  simp only [generate_dates, hs, he, h0]
  rfl

/-- CLAIM C5 witness: the descriptor `2024-07-16_2024-07-15` with the
default format and step expands to the empty list. -/
theorem claim5_reversed_range_empty_witness :
    generate_dates default_format "2024-07-16" "2024-07-15" deltaDays1 = .ok [] :=
  claim5_reversed_range_empty default_format "2024-07-16" "2024-07-15"
    ⟨2024, 7, 16⟩ ⟨2024, 7, 15⟩ deltaDays1 (by decide) (by decide) (by decide)

/-- CLAIM C2 counterexample: a descriptor whose bounds both parse under
the configured format but whose end is not yielded — with a two-day step
from 2024-07-15, the expansion stops at 2024-07-17 and 2024-07-18 is
absent, refuting "for every descriptor whose bounds parse, the date equal
to end is yielded". -/
theorem claim2_counterexample :
    default_format.parse "2024-07-15" = some ⟨2024, 7, 15⟩ ∧
    default_format.parse "2024-07-18" = some ⟨2024, 7, 18⟩ ∧
    generate_dates default_format "2024-07-15" "2024-07-18" deltaDays2 =
      .ok ["2024-07-15", "2024-07-17"] ∧
    "2024-07-18" ∉ ["2024-07-15", "2024-07-17"] :=
  ⟨by decide, by decide, by decide, by decide⟩

/-- CLAIM C2 (amended): the end bound is inclusive in the sense that a
stepped date equal to `end` is yielded. (1) If start and end parse to the
same date the expansion is exactly that one formatted date; (2) the
concrete daily example 2024-07-15..2024-07-16 yields both dates; (3) in
general, for a step that strictly advances valid dates, whenever some
number of steps from the parsed start equals the parsed end, the
formatted end is among the yielded dates. -/
theorem claim2_inclusive_end :
    (∀ (fmt : DateFormat) (s e : String) (d : Date) (δ : Delta),
      fmt.parse s = some d → fmt.parse e = some d →
      generate_dates fmt s e δ = .ok [fmt.format d]) ∧
    generate_dates default_format "2024-07-15" "2024-07-16" deltaDays1 =
      .ok ["2024-07-15", "2024-07-16"] ∧
    (∀ (fmt : DateFormat) (s e : String) (ds de : Date) (δ : Delta) (k : Nat),
      (∀ c, ValidDate c → ValidDate (addDelta c δ) ∧ dateKey c < dateKey (addDelta c δ)) →
      fmt.parse s = some ds → fmt.parse e = some de → ValidDate ds →
      (fun x => addDelta x δ)^[k] ds = de →
      ∃ l, generate_dates fmt s e δ = .ok l ∧ fmt.format de ∈ l) := by
  refine ⟨?_, by decide, ?_⟩
  · intro fmt s e d δ hs he
    have h1 : dateFuel d d = 1 := by
      unfold dateFuel
      omega
    simp only [generate_dates, hs, he, h1]
    rw [genDatesAux, if_pos (le_refl _)]
    rfl
  · intro fmt s e ds de δ k H hs he hv hit
    simp only [generate_dates, hs, he]
    exact ⟨_, rfl, mem_genDatesAux fmt δ de H k ds (dateFuel ds de) hv hit (le_refl _)⟩

/-- CLAIM C2 witness: part (3) instantiated with the default format, the
one-day step and one step from 2024-07-15 to 2024-07-16: the formatted
end date appears in the expansion. -/
theorem claim2_inclusive_end_witness :
    ∃ l, generate_dates default_format "2024-07-15" "2024-07-16" deltaDays1 = .ok l ∧
      default_format.format ⟨2024, 7, 16⟩ ∈ l :=
  claim2_inclusive_end.2.2 default_format "2024-07-15" "2024-07-16"
    ⟨2024, 7, 15⟩ ⟨2024, 7, 16⟩ deltaDays1 1 (fun c hc => stepOneDay c hc)
    (by decide) (by decide) (by decide) (by decide)

end BatchRun

namespace BatchRun

/-! ## Lemmas: range-string splitting -/

/-- A split has one more part than the separator occurs. -/
theorem splitChar_length (sep : Char) :
    ∀ l : List Char, (splitChar sep l).length = l.count sep + 1 := by
  intro l
  induction l with
  | nil => simp [splitChar]
  | cons c rest ih =>
    cases hsp : splitChar sep rest with
    | nil =>
      rw [hsp] at ih
      simp at ih
    | cons h t =>
      rw [hsp] at ih
      by_cases hc : c = sep
      · simp only [splitChar, hsp, if_pos hc, List.count_cons, hc]
        simp at ih ⊢
        omega
      · simp only [splitChar, hsp, if_neg hc, List.count_cons]
        simp [hc] at ih ⊢
        omega

/-- CLAIM C9: a range string without exactly one underscore makes the
unpacking of `split('_')` raise (a `ValueError` distinct from the
`strptime` one), and the range contributes no run: the state is returned
untouched together with the unpacking error. -/
theorem claim9_unpack_abort (r : String) (L : Launcher) (times : Nat → Nat) (dry : Bool)
    (maxC : Option Nat) (specs : List RunSpec) (δ : Delta) (fmt : DateFormat) (st : St)
    (h : r.data.count '_' ≠ 1) :
    parse_date_range r = .error .unpackError ∧
    processRange L times dry maxC specs δ fmt r st = (st, some .unpackError) := by
  have hl := splitChar_length '_' r.data
  have hpr : parse_date_range r = .error .unpackError := by
    cases hsp : splitChar '_' r.data with
    | nil => simp [parse_date_range, hsp]
    | cons a t =>
      cases t with
      | nil => simp [parse_date_range, hsp]
      | cons b t2 =>
        cases t2 with
        | nil =>
          rw [hsp] at hl
          simp at hl
          omega
        | cons c t3 => simp [parse_date_range, hsp]
  refine ⟨hpr, ?_⟩
  simp [processRange, hpr]

/-- CLAIM C9 witness: the range string `a_b_c` (two underscores) is
rejected with the unpacking error and leaves the state untouched. -/
theorem claim9_unpack_abort_witness :
    parse_date_range "a_b_c" = .error .unpackError ∧
    processRange allOk id false none [] deltaDays1 default_format "a_b_c" ⟨[], 0, []⟩ =
      (⟨[], 0, []⟩, some .unpackError) :=
  claim9_unpack_abort "a_b_c" allOk id false none [] deltaDays1 default_format
    ⟨[], 0, []⟩ (by decide)

/-! ## Claims about `InvalidDateFormat` -/

/-- CLAIM C7 counterexample: in a configuration with one explicit date
before a range whose start bound does not parse, the batch does abort
with the format error, but a launch has already occurred — refuting "for
every configuration containing a non-parsing range bound, no launch
occurs". -/
theorem claim7_counterexample :
    (runMain allOk id cfgBadRange false).2 = some .invalidDateFormat ∧
    launchNamesOf ((runMain allOk id cfgBadRange false).1).events = ["batch_2024-01-01_0"] :=
  ⟨by decide, by decide⟩

/-- CLAIM C7 (amended): a range bound that does not parse under the
configured format raises `InvalidDateFormat` at the moment that range is
reached: the failing range contributes no event (in particular no
launch) and the error aborts the remainder of the batch; launches for
explicit dates and for earlier ranges may already have occurred. -/
theorem claim7_invalid_format_on_reach (L : Launcher) (times : Nat → Nat) (dry : Bool)
    (maxC : Option Nat) (specs : List RunSpec) (δ : Delta) (fmt : DateFormat)
    (r s e : String) (st : St)
    (hp : parse_date_range r = .ok (s, e))
    (hbad : fmt.parse s = none ∨ fmt.parse e = none) :
    processRange L times dry maxC specs δ fmt r st = (st, some .invalidDateFormat) := by
  have hge : generate_dates fmt s e δ = .error .invalidDateFormat := by
    rcases hbad with hcase | hcase
    · simp only [generate_dates, hcase]
    · cases hps : fmt.parse s with
      | none => simp only [generate_dates, hps]
      | some ds => simp only [generate_dates, hps, hcase]
  simp [processRange, hp, hge]

/-- CLAIM C7 witness: the range `bad_2024-01-02`, whose start bound does
not parse, yields the format error and leaves the state untouched. -/
theorem claim7_invalid_format_on_reach_witness :
    processRange allOk id false none [bareSpec "img"] deltaDays1 default_format
      "bad_2024-01-02" ⟨[], 0, []⟩ = (⟨[], 0, []⟩, some .invalidDateFormat) :=
  claim7_invalid_format_on_reach allOk id false none [bareSpec "img"] deltaDays1
    default_format "bad_2024-01-02" "bad" "2024-01-02" ⟨[], 0, []⟩
    (by decide) (Or.inl (by decide))

/-! ## Claim about the environment argument order -/

/-- Membership in a `flatMapL` image. -/
theorem mem_flatMapL {α β : Type} (f : α → List β) (l : List α) (a : α) (b : β)
    (ha : a ∈ l) (hb : b ∈ f a) : b ∈ flatMapL f l := by
  induction l with
  | nil => cases ha
  | cons x t ih =>
    rw [flatMapL]
    rcases List.mem_cons.mp ha with hax | hat
    · exact List.mem_append_left _ (hax ▸ hb)
    · exact List.mem_append_right _ (ih hat)

/-- A member of a list sits at some valid index. -/
theorem mem_getElem_some {α : Type} (l : List α) (x : α) (hx : x ∈ l) :
    ∃ i : Nat, i < l.length ∧ l[i]? = some x := by
  obtain ⟨n, hn⟩ := List.get_of_mem hx
  exact ⟨n.1, n.2, by simp [hn.symm]⟩

/-- CLAIM C10: in the composed `docker run` argument list, the synthetic
`CUSTOM_DATE` entry sits at index 5, every entry coming from the
RunSpec's literal variables or env files sits at an index of at least 6,
and in particular a literal variable named `CUSTOM_DATE` contributes an
entry after the synthetic one (so it can shadow it). -/
theorem claim10_custom_date_precedes (name date : String) (data : RunSpec) :
    (composeArgs name date data)[5]? = some ("CUSTOM_DATE=" ++ date) ∧
    (∀ s ∈ envArgs data.envs, ∃ i, 6 ≤ i ∧ (composeArgs name date data)[i]? = some s) ∧
    (∀ (v : String) (vars : List (String × String)),
      data.envs.variable_envs = some vars → ("CUSTOM_DATE", v) ∈ vars →
      ∃ j, 6 ≤ j ∧ (composeArgs name date data)[j]? = some ("CUSTOM_DATE=" ++ v)) := by
  have hsplit : composeArgs name date data =
      ["docker", "run", "-d", "--name=" ++ name, "-e", "CUSTOM_DATE=" ++ date] ++
        (envArgs data.envs ++ [data.container]) := by
    unfold composeArgs
    rw [List.append_assoc]
  have hmem : ∀ s ∈ envArgs data.envs,
      ∃ i, 6 ≤ i ∧ (composeArgs name date data)[i]? = some s := by
    intro s hs
    obtain ⟨i, hlen, hget⟩ := mem_getElem_some (envArgs data.envs) s hs
    refine ⟨6 + i, by omega, ?_⟩
    rw [hsplit, List.getElem?_append_right (by simp)]
    simp only [List.length_cons, List.length_nil]
    have hidx : 6 + i - 6 = i := by omega
    rw [hidx, List.getElem?_append_left hlen]
    exact hget
  refine ⟨?_, hmem, ?_⟩
  · rw [hsplit, List.getElem?_append_left (by simp)]
    rfl
  · intro v vars hv hmemv
    have hentry : "CUSTOM_DATE" ++ "=" ++ v = "CUSTOM_DATE=" ++ v := by
      have : ("CUSTOM_DATE" ++ "=" : String) = "CUSTOM_DATE=" := by decide
      rw [this]
    have hin : ("CUSTOM_DATE=" ++ v) ∈ envArgs data.envs := by
      unfold envArgs
      rw [hv]
      refine List.mem_append_left _ ?_
      refine mem_flatMapL _ vars ("CUSTOM_DATE", v) _ hmemv ?_
      rw [← hentry]
      simp
    exact hmem _ hin

/-- CLAIM C10 witness: with a literal variable also named `CUSTOM_DATE`,
the synthetic entry sits at index 5 and the literal entry sits at some
index of at least 6. -/
theorem claim10_custom_date_precedes_witness :
    (composeArgs "n" "d" ⟨"img", ⟨some [("CUSTOM_DATE", "x")], some ["f.env"]⟩⟩)[5]? =
      some ("CUSTOM_DATE=" ++ "d") ∧
    ∃ j, 6 ≤ j ∧
      (composeArgs "n" "d" ⟨"img", ⟨some [("CUSTOM_DATE", "x")], some ["f.env"]⟩⟩)[j]? =
        some ("CUSTOM_DATE=" ++ "x") :=
  ⟨(claim10_custom_date_precedes "n" "d" _).1,
    (claim10_custom_date_precedes "n" "d" _).2.2 "x" [("CUSTOM_DATE", "x")] rfl
      (by decide)⟩

end BatchRun

namespace BatchRun

/-! ## Lemmas: trace observations distribute over appending -/

/-- Announcement extraction distributes over trace concatenation. -/
theorem announcesOf_append (a b : List Event) :
    announcesOf (a ++ b) = announcesOf a ++ announcesOf b := by
  induction a with
  | nil => rfl
  | cons e t ih => cases e <;> simp [announcesOf, ih]

/-- Launch-name extraction distributes over trace concatenation. -/
theorem launchNamesOf_append (a b : List Event) :
    launchNamesOf (a ++ b) = launchNamesOf a ++ launchNamesOf b := by
  induction a with
  | nil => rfl
  | cons e t ih => cases e <;> simp [launchNamesOf, ih]

/-- Removal extraction distributes over trace concatenation. -/
theorem removesOf_append (a b : List Event) :
    removesOf (a ++ b) = removesOf a ++ removesOf b := by
  induction a with
  | nil => rfl
  | cons e t ih => cases e <;> simp [removesOf, ih]

/-- `flatMapL` distributes over list concatenation. -/
theorem flatMapL_append {α β : Type} (f : α → List β) (a b : List α) :
    flatMapL f (a ++ b) = flatMapL f a ++ flatMapL f b := by
  induction a with
  | nil => rfl
  | cons x t ih => simp [flatMapL, ih]

/-- Mapping after `flatMapL` maps inside each block. -/
theorem map_flatMapL {α β γ : Type} (f : α → List β) (g : β → γ) (l : List α) :
    (flatMapL f l).map g = flatMapL (fun x => (f x).map g) l := by
  induction l with
  | nil => rfl
  | cons x t ih => simp [flatMapL, ih]

/-! ## Lemmas: one step of `run_containers` -/

/-- Every step announces exactly its own `(container, date)` pair,
whether it is dry, succeeds, or fails at any of the three calls. -/
theorem runSpecStep_announces (L : Launcher) (times : Nat → Nat) (dry : Bool)
    (maxC : Option Nat) (date : String) (data : RunSpec) (st : St) :
    announcesOf ((runSpecStep L times dry maxC date data st).1).events
      = announcesOf st.events ++ [(data.container, date)] := by
  simp only [runSpecStep]
  split_ifs <;> simp [announcesOf_append, announcesOf]

end BatchRun

namespace BatchRun

/-! ## Lemmas: announcements are a prefix of the plan, complete on success -/

/-- `run_containers` announces an initial segment of its date's planned
pairs, and the whole of it when it returns without error. -/
theorem run_containers_announces (L : Launcher) (times : Nat → Nat) (dry : Bool)
    (maxC : Option Nat) (date : String) :
    ∀ (specs : List RunSpec) (st : St),
      ∃ done rest,
        specs.map (fun r => (r.container, date)) = done ++ rest ∧
        announcesOf ((run_containers L times dry maxC date specs st).1).events
          = announcesOf st.events ++ done ∧
        ((run_containers L times dry maxC date specs st).2 = none → rest = []) := by
  intro specs
  induction specs with
  | nil =>
    intro st
    exact ⟨[], [], rfl, by simp [run_containers], fun _ => rfl⟩
  | cons data t ih =>
    intro st
    cases hstep : runSpecStep L times dry maxC date data st with
    | mk st' err =>
      have hann : announcesOf st'.events = announcesOf st.events ++ [(data.container, date)] := by
        have := runSpecStep_announces L times dry maxC date data st
        rw [hstep] at this
        exact this
      cases err with
      | none =>
        obtain ⟨done, rest, h1, h2, h3⟩ := ih st'
        refine ⟨(data.container, date) :: done, rest, ?_, ?_, ?_⟩
        · simp [h1]
        · simp only [run_containers, hstep, h2, hann]
          simp
        · intro hok
          apply h3
          simpa [run_containers, hstep] using hok
      | some e =>
        refine ⟨[(data.container, date)], t.map (fun r => (r.container, date)), by simp, ?_, ?_⟩
        · simp only [run_containers, hstep]
          exact hann
        · intro hok
          simp [run_containers, hstep] at hok

/-- `runDates` announces an initial segment of the planned pairs of its
dates, and the whole of it when it returns without error. -/
theorem runDates_announces (L : Launcher) (times : Nat → Nat) (dry : Bool)
    (maxC : Option Nat) (specs : List RunSpec) :
    ∀ (ds : List String) (st : St),
      ∃ done rest,
        flatMapL (fun d => specs.map (fun r => (r.container, d))) ds = done ++ rest ∧
        announcesOf ((runDates L times dry maxC specs ds st).1).events
          = announcesOf st.events ++ done ∧
        ((runDates L times dry maxC specs ds st).2 = none → rest = []) := by
  intro ds
  induction ds with
  | nil =>
    intro st
    exact ⟨[], [], rfl, by simp [runDates], fun _ => rfl⟩
  | cons d ds' ih =>
    intro st
    obtain ⟨done1, rest1, h11, h12, h13⟩ := run_containers_announces L times dry maxC d specs st
    cases hrc : run_containers L times dry maxC d specs st with
    | mk st' err =>
      rw [hrc] at h12 h13
      cases err with
      | none =>
        have hrest1 : rest1 = [] := h13 rfl
        subst hrest1
        obtain ⟨done2, rest2, h21, h22, h23⟩ := ih st'
        refine ⟨done1 ++ done2, rest2, ?_, ?_, ?_⟩
        · rw [flatMapL, h21, h11]
          simp
        · simp only [runDates, hrc, h22, h12]
          simp
        · intro hok
          apply h23
          simpa [runDates, hrc] using hok
      | some e =>
        refine ⟨done1, rest1 ++ flatMapL (fun d => specs.map (fun r => (r.container, d))) ds',
          ?_, ?_, ?_⟩
        · rw [flatMapL, h11]
          simp
        · simp only [runDates, hrc]
          exact h12
        · intro hok
          simp [runDates, hrc] at hok

/-- `processRanges` announces an initial segment of the planned pairs of
the expanded ranges, and the whole of it when it returns without error. -/
theorem processRanges_announces (L : Launcher) (times : Nat → Nat) (dry : Bool)
    (maxC : Option Nat) (specs : List RunSpec) (δ : Delta) (fmt : DateFormat) :
    ∀ (rs : List String) (rds : List String) (st : St),
      expandRanges fmt δ rs = .ok rds →
      ∃ done rest,
        flatMapL (fun d => specs.map (fun r => (r.container, d))) rds = done ++ rest ∧
        announcesOf ((processRanges L times dry maxC specs δ fmt rs st).1).events
          = announcesOf st.events ++ done ∧
        ((processRanges L times dry maxC specs δ fmt rs st).2 = none → rest = []) := by
  intro rs
  induction rs with
  | nil =>
    intro rds st hE
    cases hE
    exact ⟨[], [], rfl, by simp [processRanges], fun _ => rfl⟩
  | cons r rs' ih =>
    intro rds st hE
    cases hp : parse_date_range r with
    | error e => simp [expandRanges, hp] at hE
    | ok pair =>
      obtain ⟨s, e⟩ := pair
      simp only [expandRanges, hp] at hE
      cases hge : generate_dates fmt s e δ with
      | error e2 => simp [hge] at hE
      | ok ds1 =>
        simp only [hge] at hE
        cases hrs : expandRanges fmt δ rs' with
        | error e3 => simp [hrs] at hE
        | ok rds' =>
          simp only [hrs, Except.ok.injEq] at hE
          subst hE
          have hpr : processRange L times dry maxC specs δ fmt r st
              = runDates L times dry maxC specs ds1 st := by
            simp [processRange, hp, hge]
          obtain ⟨done1, rest1, h11, h12, h13⟩ :=
            runDates_announces L times dry maxC specs ds1 st
          cases hrd : runDates L times dry maxC specs ds1 st with
          | mk st' err =>
            rw [hrd] at h12 h13
            cases err with
            | none =>
              have hrest1 : rest1 = [] := h13 rfl
              subst hrest1
              obtain ⟨done2, rest2, h21, h22, h23⟩ := ih rds' st' hrs
              refine ⟨done1 ++ done2, rest2, ?_, ?_, ?_⟩
              · rw [flatMapL_append, h21, h11]
                simp
              · simp only [processRanges, hpr, hrd, h22, h12]
                simp
              · intro hok
                apply h23
                simpa [processRanges, hpr, hrd] using hok
            | some err1 =>
              refine ⟨done1,
                rest1 ++ flatMapL (fun d => specs.map (fun r => (r.container, d))) rds',
                ?_, ?_, ?_⟩
              · rw [flatMapL_append, h11]
                simp
              · simp only [processRanges, hpr, hrd]
                exact h12
              · intro hok
                simp [processRanges, hpr, hrd] at hok

/-- The whole batch announces an initial segment of the planned pairs,
and exactly the planned pairs when it completes without error. -/
theorem runMain_announces (L : Launcher) (times : Nat → Nat) (cfg : Config) (dry : Bool)
    (ds : List String) (hds : specOrderedDates cfg = .ok ds) :
    ∃ done rest,
      plannedPairs cfg ds = done ++ rest ∧
      announcesOf ((runMain L times cfg dry).1).events = done ∧
      ((runMain L times cfg dry).2 = none → rest = []) := by
  rw [specOrderedDates] at hds
  cases hE : expandRanges cfg.date_format cfg.delta cfg.date_ranges with
  | error e => rw [hE] at hds; cases hds
  | ok rds =>
    rw [hE] at hds
    cases hds
    obtain ⟨done1, rest1, h11, h12, h13⟩ :=
      runDates_announces L times dry cfg.max_stored cfg.run_data cfg.dates ⟨[], 0, []⟩
    cases hrd : runDates L times dry cfg.max_stored cfg.run_data cfg.dates ⟨[], 0, []⟩ with
    | mk st' err =>
      rw [hrd] at h12 h13
      cases err with
      | none =>
        have hrest1 : rest1 = [] := h13 rfl
        subst hrest1
        obtain ⟨done2, rest2, h21, h22, h23⟩ :=
          processRanges_announces L times dry cfg.max_stored cfg.run_data cfg.delta
            cfg.date_format cfg.date_ranges rds st' hE
        refine ⟨done1 ++ done2, rest2, ?_, ?_, ?_⟩
        · rw [plannedPairs, flatMapL_append, h21, h11]
          simp
        · simp only [runMain, hrd, h22, h12]
          simp [announcesOf]
        · intro hok
          apply h23
          simpa [runMain, hrd] using hok
      | some e =>
        refine ⟨done1,
          rest1 ++ flatMapL (fun d => cfg.run_data.map (fun r => (r.container, d))) rds,
          ?_, ?_, ?_⟩
        · rw [plannedPairs, flatMapL_append, h11]
          simp
        · simp only [runMain, hrd]
          simpa [announcesOf] using h12
        · intro hok
          simp [runMain, hrd] at hok

end BatchRun

namespace BatchRun

/-- A range loop that finishes without error had every range parse and
expand. -/
theorem processRanges_ok_expand (L : Launcher) (times : Nat → Nat) (dry : Bool)
    (maxC : Option Nat) (specs : List RunSpec) (δ : Delta) (fmt : DateFormat) :
    ∀ (rs : List String) (st : St),
      (processRanges L times dry maxC specs δ fmt rs st).2 = none →
      ∃ rds, expandRanges fmt δ rs = .ok rds := by
  intro rs
  induction rs with
  | nil =>
    intro st _
    exact ⟨[], rfl⟩
  | cons r rs' ih =>
    intro st hok
    cases hp : parse_date_range r with
    | error e => simp [processRanges, processRange, hp] at hok
    | ok pair =>
      obtain ⟨s, e⟩ := pair
      cases hge : generate_dates fmt s e δ with
      | error e2 => simp [processRanges, processRange, hp, hge] at hok
      | ok ds1 =>
        have hpr : processRange L times dry maxC specs δ fmt r st
            = runDates L times dry maxC specs ds1 st := by
          simp [processRange, hp, hge]
        cases hrd : runDates L times dry maxC specs ds1 st with
        | mk st' err =>
          cases err with
          | none =>
            obtain ⟨rds', hrds⟩ := ih st' (by simpa [processRanges, hpr, hrd] using hok)
            exact ⟨ds1 ++ rds', by simp [expandRanges, hp, hge, hrds]⟩
          | some e1 => simp [processRanges, hpr, hrd] at hok

/-- CLAIM C1: a batch that completes without error processed exactly the
spec-ordered dates — explicit dates first in listed order, then each
range in step order, ranges in listed order — announcing, for each date,
every `run_data` entry in listed order before advancing to the next
date. -/
theorem claim1_processing_order (cfg : Config) (L : Launcher) (times : Nat → Nat)
    (hok : (runMain L times cfg false).2 = none) :
    ∃ ds, specOrderedDates cfg = .ok ds ∧
      announcesOf ((runMain L times cfg false).1).events = plannedPairs cfg ds := by
  have hexp : ∃ rds, expandRanges cfg.date_format cfg.delta cfg.date_ranges = .ok rds := by
    cases hrd : runDates L times false cfg.max_stored cfg.run_data cfg.dates ⟨[], 0, []⟩ with
    | mk st' err =>
      cases err with
      | none =>
        apply processRanges_ok_expand L times false cfg.max_stored cfg.run_data cfg.delta
          cfg.date_format cfg.date_ranges st'
        simpa [runMain, hrd] using hok
      | some e => simp [runMain, hrd] at hok
  obtain ⟨rds, hrds⟩ := hexp
  have hds : specOrderedDates cfg = .ok (cfg.dates ++ rds) := by
    simp [specOrderedDates, hrds]
  obtain ⟨done, rest, h1, h2, h3⟩ := runMain_announces L times cfg false (cfg.dates ++ rds) hds
  refine ⟨cfg.dates ++ rds, hds, ?_⟩
  rw [h2, h1, h3 hok]
  simp

/-- CLAIM C1 witness: the mixed configuration (explicit `A`, `B` then the
range `2024-07-15..16`, two tasks) runs without error, so the theorem
applies to it. -/
theorem claim1_processing_order_witness :
    ∃ ds, specOrderedDates cfgMix = .ok ds ∧
      announcesOf ((runMain allOk id cfgMix false).1).events = plannedPairs cfgMix ds :=
  claim1_processing_order cfgMix allOk id (by decide)

/-- CLAIM C4: the first failing launch, wait, or removal call aborts the
entire batch immediately. Universally, for every batch: (1) within a
date, once the preceding units succeed, a failing unit ends
`run_containers` with exactly that unit's state and error — the later
RunSpecs of the date contribute nothing and the state at the failure
(completed runs included) is returned unchanged, not rolled back;
(2) across dates, a failing date ends the date loop the same way — no
later date is attempted; (3) across ranges, a failing range ends the
range loop the same way — no later range is attempted; (4) whenever a
live batch ends in an error, its announcements are an initial segment of
the planned pairs, and since every attempted unit announces before doing
anything, no unit beyond that segment was ever attempted. Concretely,
every failure mode named by the claim is exercised, each time on the 2nd
unit: a `docker run` failure (trace ends at the failing launch, units
3–5 of 5 unattempted, unit 1's completed run still recorded, no removal
issued), a `docker wait` failure (trace ends at the failing wait, the
failed run is not recorded, unit 1's run still recorded), and a
`docker rm` failure during pruning with cap 1 (trace ends at the failing
removal, unit 3 of 3 unattempted, the popped oldest name discarded and
the newest retained). In each case the process reports the failure. -/
theorem claim4_first_failure_aborts :
    (∀ (L : Launcher) (times : Nat → Nat) (dry : Bool) (maxC : Option Nat) (date : String)
        (good : List RunSpec) (bad : RunSpec) (later : List RunSpec)
        (st st1 st2 : St) (e : Err),
      run_containers L times dry maxC date good st = (st1, none) →
      runSpecStep L times dry maxC date bad st1 = (st2, some e) →
      run_containers L times dry maxC date (good ++ bad :: later) st = (st2, some e)) ∧
    (∀ (L : Launcher) (times : Nat → Nat) (dry : Bool) (maxC : Option Nat)
        (specs : List RunSpec) (dsGood : List String) (d : String) (dsLater : List String)
        (st st1 st2 : St) (e : Err),
      runDates L times dry maxC specs dsGood st = (st1, none) →
      run_containers L times dry maxC d specs st1 = (st2, some e) →
      runDates L times dry maxC specs (dsGood ++ d :: dsLater) st = (st2, some e)) ∧
    (∀ (L : Launcher) (times : Nat → Nat) (dry : Bool) (maxC : Option Nat)
        (specs : List RunSpec) (δ : Delta) (fmt : DateFormat)
        (rsGood : List String) (r : String) (rsLater : List String)
        (st st1 st2 : St) (e : Err),
      processRanges L times dry maxC specs δ fmt rsGood st = (st1, none) →
      processRange L times dry maxC specs δ fmt r st1 = (st2, some e) →
      processRanges L times dry maxC specs δ fmt (rsGood ++ r :: rsLater) st
        = (st2, some e)) ∧
    (∀ (cfg : Config) (L : Launcher) (times : Nat → Nat) (ds : List String)
        (st : St) (e : Err),
      specOrderedDates cfg = .ok ds → runMain L times cfg false = (st, some e) →
      ∃ rest, plannedPairs cfg ds = announcesOf st.events ++ rest) ∧
    (runMain failOnD2 id cfgFive false =
      (⟨["batch_d1_0"], 2,
        [.announce "img" "d1",
         .launch "batch_d1_0"
           ["docker", "run", "-d", "--name=batch_d1_0", "-e", "CUSTOM_DATE=d1", "img"],
         .wait "batch_d1_0",
         .announce "img" "d2",
         .launch "batch_d2_1"
           ["docker", "run", "-d", "--name=batch_d2_1", "-e", "CUSTOM_DATE=d2", "img"]]⟩,
        some .launchFailure)) ∧
    (runMain failWaitD2 id cfgFive false =
      (⟨["batch_d1_0"], 2,
        [.announce "img" "d1",
         .launch "batch_d1_0"
           ["docker", "run", "-d", "--name=batch_d1_0", "-e", "CUSTOM_DATE=d1", "img"],
         .wait "batch_d1_0",
         .announce "img" "d2",
         .launch "batch_d2_1"
           ["docker", "run", "-d", "--name=batch_d2_1", "-e", "CUSTOM_DATE=d2", "img"],
         .wait "batch_d2_1"]⟩,
        some .launchFailure)) ∧
    (runMain failRemove id cfgRetention1 false =
      (⟨["batch_d2_1"], 2,
        [.announce "img" "d1",
         .launch "batch_d1_0"
           ["docker", "run", "-d", "--name=batch_d1_0", "-e", "CUSTOM_DATE=d1", "img"],
         .wait "batch_d1_0",
         .announce "img" "d2",
         .launch "batch_d2_1"
           ["docker", "run", "-d", "--name=batch_d2_1", "-e", "CUSTOM_DATE=d2", "img"],
         .wait "batch_d2_1",
         .remove "batch_d1_0"]⟩,
        some .launchFailure)) := by
  refine ⟨?_, ?_, ?_, ?_, by decide, by decide, by decide⟩
  · intro L times dry maxC date good
    induction good with
    | nil =>
      intro bad later st st1 st2 e hgood hbad
      simp only [run_containers, Prod.mk.injEq, and_true] at hgood
      subst hgood
      simp only [List.nil_append, run_containers, hbad]
    | cons g gs ih =>
      intro bad later st st1 st2 e hgood hbad
      cases hs : runSpecStep L times dry maxC date g st with
      | mk a err1 =>
        cases err1 with
        | none =>
          simp only [run_containers, hs] at hgood
          simp only [List.cons_append, run_containers, hs]
          exact ih bad later a st1 st2 e hgood hbad
        | some e1 =>
          simp [run_containers, hs] at hgood
  · intro L times dry maxC specs dsGood
    induction dsGood with
    | nil =>
      intro d dsLater st st1 st2 e hgood hbad
      simp only [runDates, Prod.mk.injEq, and_true] at hgood
      subst hgood
      simp only [List.nil_append, runDates, hbad]
    | cons g gs ih =>
      intro d dsLater st st1 st2 e hgood hbad
      cases hs : run_containers L times dry maxC g specs st with
      | mk a err1 =>
        cases err1 with
        | none =>
          simp only [runDates, hs] at hgood
          simp only [List.cons_append, runDates, hs]
          exact ih d dsLater a st1 st2 e hgood hbad
        | some e1 =>
          simp [runDates, hs] at hgood
  · intro L times dry maxC specs δ fmt rsGood
    induction rsGood with
    | nil =>
      intro r rsLater st st1 st2 e hgood hbad
      simp only [processRanges, Prod.mk.injEq, and_true] at hgood
      subst hgood
      simp only [List.nil_append, processRanges, hbad]
    | cons g gs ih =>
      intro r rsLater st st1 st2 e hgood hbad
      cases hs : processRange L times dry maxC specs δ fmt g st with
      | mk a err1 =>
        cases err1 with
        | none =>
          simp only [processRanges, hs] at hgood
          simp only [List.cons_append, processRanges, hs]
          exact ih r rsLater a st1 st2 e hgood hbad
        | some e1 =>
          simp [processRanges, hs] at hgood
  · intro cfg L times ds st e hds hrun
    obtain ⟨done, rest, h1, h2, _⟩ := runMain_announces L times cfg false ds hds
    rw [hrun] at h2
    exact ⟨rest, by rw [h1, h2]⟩

/-- CLAIM C4 witness: the within-a-date abort applied concretely — after
one successful unit on date `d`, the second unit's launch fails, and
`run_containers` over all three units returns exactly the failing unit's
state with the failure; the third unit is never attempted. -/
theorem claim4_first_failure_aborts_witness :
    run_containers failSecondLaunch id false none "d"
      ([bareSpec "imgA"] ++ bareSpec "imgB" :: [bareSpec "imgC"]) ⟨[], 0, []⟩ =
      (⟨["batch_d_0"], 2,
        [.announce "imgA" "d",
         .launch "batch_d_0"
           ["docker", "run", "-d", "--name=batch_d_0", "-e", "CUSTOM_DATE=d", "imgA"],
         .wait "batch_d_0",
         .announce "imgB" "d",
         .launch "batch_d_1"
           ["docker", "run", "-d", "--name=batch_d_1", "-e", "CUSTOM_DATE=d", "imgB"]]⟩,
        some .launchFailure) :=
  claim4_first_failure_aborts.1 failSecondLaunch id false none "d"
    [bareSpec "imgA"] (bareSpec "imgB") [bareSpec "imgC"] ⟨[], 0, []⟩
    ⟨["batch_d_0"], 1,
      [.announce "imgA" "d",
       .launch "batch_d_0"
         ["docker", "run", "-d", "--name=batch_d_0", "-e", "CUSTOM_DATE=d", "imgA"],
       .wait "batch_d_0"]⟩
    ⟨["batch_d_0"], 2,
      [.announce "imgA" "d",
       .launch "batch_d_0"
         ["docker", "run", "-d", "--name=batch_d_0", "-e", "CUSTOM_DATE=d", "imgA"],
       .wait "batch_d_0",
       .announce "imgB" "d",
       .launch "batch_d_1"
         ["docker", "run", "-d", "--name=batch_d_1", "-e", "CUSTOM_DATE=d", "imgB"]]⟩
    .launchFailure (by decide) (by decide)

end BatchRun

namespace BatchRun

/-! ## Lemmas: dry-run behaviour -/

/-- A dry step only announces: no docker call, no state change beyond the
trace, no `time_ns` consumption, and it cannot fail. -/
theorem runSpecStep_dry (L : Launcher) (times : Nat → Nat) (maxC : Option Nat)
    (date : String) (data : RunSpec) (st : St) :
    runSpecStep L times true maxC date data st =
      ({ st with events := st.events ++ [.announce data.container date] }, none) := by
  simp [runSpecStep]

/-- A dry `run_containers` only appends the announcements of its date. -/
theorem run_containers_dry (L : Launcher) (times : Nat → Nat) (maxC : Option Nat)
    (date : String) :
    ∀ (specs : List RunSpec) (st : St),
      run_containers L times true maxC date specs st =
        ({ st with events := st.events ++
            specs.map (fun r => Event.announce r.container date) }, none) := by
  intro specs
  induction specs with
  | nil =>
    intro st
    cases st
    simp [run_containers]
  | cons data t ih =>
    intro st
    simp only [run_containers, runSpecStep_dry]
    rw [ih]
    cases st
    simp

/-- A dry date loop only appends the announcements of its dates. -/
theorem runDates_dry (L : Launcher) (times : Nat → Nat) (maxC : Option Nat)
    (specs : List RunSpec) :
    ∀ (ds : List String) (st : St),
      runDates L times true maxC specs ds st =
        ({ st with events := st.events ++
            flatMapL (fun d => specs.map (fun r => Event.announce r.container d)) ds },
          none) := by
  intro ds
  induction ds with
  | nil =>
    intro st
    cases st
    simp [runDates, flatMapL]
  | cons d ds' ih =>
    intro st
    simp only [runDates, run_containers_dry]
    rw [ih]
    cases st
    simp [flatMapL]

/-- A dry range loop whose ranges all expand only appends the
announcements of the expanded dates. -/
theorem processRanges_dry (L : Launcher) (times : Nat → Nat) (maxC : Option Nat)
    (specs : List RunSpec) (δ : Delta) (fmt : DateFormat) :
    ∀ (rs rds : List String) (st : St), expandRanges fmt δ rs = .ok rds →
      processRanges L times true maxC specs δ fmt rs st =
        ({ st with events := st.events ++
            flatMapL (fun d => specs.map (fun r => Event.announce r.container d)) rds },
          none) := by
  intro rs
  induction rs with
  | nil =>
    intro rds st hE
    cases hE
    cases st
    simp [processRanges, flatMapL]
  | cons r rs' ih =>
    intro rds st hE
    cases hp : parse_date_range r with
    | error e => simp [expandRanges, hp] at hE
    | ok pair =>
      obtain ⟨s, e⟩ := pair
      simp only [expandRanges, hp] at hE
      cases hge : generate_dates fmt s e δ with
      | error e2 => simp [hge] at hE
      | ok ds1 =>
        simp only [hge] at hE
        cases hrs : expandRanges fmt δ rs' with
        | error e3 => simp [hrs] at hE
        | ok rds' =>
          simp only [hrs, Except.ok.injEq] at hE
          subst hE
          have hpr : processRange L times true maxC specs δ fmt r st
              = runDates L times true maxC specs ds1 st := by
            simp [processRange, hp, hge]
          simp only [processRanges, hpr, runDates_dry]
          rw [ih rds' _ hrs]
          cases st
          simp [flatMapL_append]

/-- Launch names of a pure announcement trace: none. -/
theorem launchNamesOf_map_announce (l : List (String × String)) :
    launchNamesOf (l.map (fun p => Event.announce p.1 p.2)) = [] := by
  induction l with
  | nil => rfl
  | cons p t ih => simp [launchNamesOf, ih]

/-- Removals of a pure announcement trace: none. -/
theorem removesOf_map_announce (l : List (String × String)) :
    removesOf (l.map (fun p => Event.announce p.1 p.2)) = [] := by
  induction l with
  | nil => rfl
  | cons p t ih => simp [removesOf, ih]

/-- The planned pairs, rendered as announcement events. -/
theorem plannedPairs_map_announce (cfg : Config) (ds : List String) :
    (plannedPairs cfg ds).map (fun p => Event.announce p.1 p.2)
      = flatMapL (fun d => cfg.run_data.map (fun r => Event.announce r.container d)) ds := by
  rw [plannedPairs, map_flatMapL]
  congr 1
  funext d
  rw [List.map_map]
  rfl

/-- CLAIM C6: a dry run of a valid configuration performs no launch, wait
or removal, never mutates the run history (and consumes no `time_ns`),
and its whole trace is exactly one announcement per planned
`(container, date)` pair, in the order live mode processes them. -/
theorem claim6_dry_run (cfg : Config) (L : Launcher) (times : Nat → Nat) (ds : List String)
    (hds : specOrderedDates cfg = .ok ds) :
    runMain L times cfg true =
      (⟨[], 0, (plannedPairs cfg ds).map (fun p => Event.announce p.1 p.2)⟩, none) ∧
    launchNamesOf ((runMain L times cfg true).1).events = [] ∧
    removesOf ((runMain L times cfg true).1).events = [] ∧
    ((runMain L times cfg true).1).containerIds = [] := by
  rw [specOrderedDates] at hds
  cases hE : expandRanges cfg.date_format cfg.delta cfg.date_ranges with
  | error e => rw [hE] at hds; cases hds
  | ok rds =>
    rw [hE] at hds
    cases hds
    have hmain : runMain L times cfg true =
        (⟨[], 0, (plannedPairs cfg (cfg.dates ++ rds)).map
            (fun p => Event.announce p.1 p.2)⟩, none) := by
      simp only [runMain, runDates_dry]
      rw [processRanges_dry L times cfg.max_stored cfg.run_data cfg.delta cfg.date_format
        cfg.date_ranges rds _ hE]
      rw [plannedPairs_map_announce, flatMapL_append]
      simp
    refine ⟨hmain, ?_, ?_, ?_⟩
    · rw [hmain]
      exact launchNamesOf_map_announce _
    · rw [hmain]
      exact removesOf_map_announce _
    · rw [hmain]

/-- CLAIM C6 witness: the dry run of the mixed configuration. -/
theorem claim6_dry_run_witness :
    runMain allOk id cfgMix true =
      (⟨[], 0, (plannedPairs cfgMix ["A", "B", "2024-07-15", "2024-07-16"]).map
          (fun p => Event.announce p.1 p.2)⟩, none) ∧
    launchNamesOf ((runMain allOk id cfgMix true).1).events = [] ∧
    removesOf ((runMain allOk id cfgMix true).1).events = [] ∧
    ((runMain allOk id cfgMix true).1).containerIds = [] :=
  claim6_dry_run cfgMix allOk id ["A", "B", "2024-07-15", "2024-07-16"] (by decide)

end BatchRun

namespace BatchRun

/-! ## Lemmas: the retention bound -/

/-- One step keeps the retained-name count within the cap (whether it is
dry, succeeds, or fails at any point). -/
theorem runSpecStep_ids_le (L : Launcher) (times : Nat → Nat) (dry : Bool) (m : Nat)
    (date : String) (data : RunSpec) (st : St) (h : st.containerIds.length ≤ m) :
    ((runSpecStep L times dry (some m) date data st).1).containerIds.length ≤ m := by
  simp only [runSpecStep]
  split_ifs with h1 h2 h3 h4 <;> simp_all [overMax]

/-- `run_containers` keeps the retained-name count within the cap. -/
theorem run_containers_ids_le (L : Launcher) (times : Nat → Nat) (dry : Bool) (m : Nat)
    (date : String) :
    ∀ (specs : List RunSpec) (st : St), st.containerIds.length ≤ m →
      ((run_containers L times dry (some m) date specs st).1).containerIds.length ≤ m := by
  intro specs
  induction specs with
  | nil =>
    intro st h
    simpa [run_containers] using h
  | cons data t ih =>
    intro st h
    have hstep := runSpecStep_ids_le L times dry m date data st h
    cases hs : runSpecStep L times dry (some m) date data st with
    | mk st' err =>
      rw [hs] at hstep
      cases err with
      | none =>
        simp only [run_containers, hs]
        exact ih st' hstep
      | some e =>
        simpa [run_containers, hs] using hstep

/-- The date loop keeps the retained-name count within the cap. -/
theorem runDates_ids_le (L : Launcher) (times : Nat → Nat) (dry : Bool) (m : Nat)
    (specs : List RunSpec) :
    ∀ (ds : List String) (st : St), st.containerIds.length ≤ m →
      ((runDates L times dry (some m) specs ds st).1).containerIds.length ≤ m := by
  intro ds
  induction ds with
  | nil =>
    intro st h
    simpa [runDates] using h
  | cons d ds' ih =>
    intro st h
    have hrc := run_containers_ids_le L times dry m d specs st h
    cases hs : run_containers L times dry (some m) d specs st with
    | mk st' err =>
      rw [hs] at hrc
      cases err with
      | none =>
        simp only [runDates, hs]
        exact ih st' hrc
      | some e =>
        simpa [runDates, hs] using hrc

/-- The range loop keeps the retained-name count within the cap. -/
theorem processRanges_ids_le (L : Launcher) (times : Nat → Nat) (dry : Bool) (m : Nat)
    (specs : List RunSpec) (δ : Delta) (fmt : DateFormat) :
    ∀ (rs : List String) (st : St), st.containerIds.length ≤ m →
      ((processRanges L times dry (some m) specs δ fmt rs st).1).containerIds.length ≤ m := by
  intro rs
  induction rs with
  | nil =>
    intro st h
    simpa [processRanges] using h
  | cons r rs' ih =>
    intro st h
    have hpr : ((processRange L times dry (some m) specs δ fmt r st).1).containerIds.length
        ≤ m := by
      cases hp : parse_date_range r with
      | error e => simpa [processRange, hp] using h
      | ok pair =>
        obtain ⟨s, e⟩ := pair
        cases hge : generate_dates fmt s e δ with
        | error e2 => simpa [processRange, hp, hge] using h
        | ok ds1 =>
          have := runDates_ids_le L times dry m specs ds1 st h
          simpa [processRange, hp, hge] using this
    cases hs : processRange L times dry (some m) specs δ fmt r st with
    | mk st' err =>
      rw [hs] at hpr
      cases err with
      | none =>
        simp only [processRanges, hs]
        exact ih st' hpr
      | some e =>
        simpa [processRanges, hs] using hpr

/-- The whole batch keeps the retained-name count within the cap. -/
theorem runMain_ids_le (L : Launcher) (times : Nat → Nat) (cfg : Config) (dry : Bool)
    (m : Nat) (hm : cfg.max_stored = some m) :
    ((runMain L times cfg dry).1).containerIds.length ≤ m := by
  have h0 : (⟨[], 0, []⟩ : St).containerIds.length ≤ m := by simp
  have hrd := runDates_ids_le L times dry m cfg.run_data cfg.dates ⟨[], 0, []⟩ h0
  rw [← hm] at hrd
  cases hs : runDates L times dry cfg.max_stored cfg.run_data cfg.dates ⟨[], 0, []⟩ with
  | mk st' err =>
    rw [hs] at hrd
    cases err with
    | none =>
      have := processRanges_ids_le L times dry m cfg.run_data cfg.delta cfg.date_format
        cfg.date_ranges st' hrd
      rw [← hm] at this
      simpa [runMain, hs] using this
    | some e =>
      simpa [runMain, hs] using hrd

/-- CLAIM C3: the run history never exceeds the cap after any step — one
`run_containers` step preserves the bound, and the whole batch respects
it — and concretely, with `max_stored = 2` and three sequential runs,
exactly one removal is issued, it targets the first identifier, and the
retained identifiers are exactly the last two, oldest first. -/
theorem claim3_retention_cap :
    (∀ (L : Launcher) (times : Nat → Nat) (dry : Bool) (m : Nat) (date : String)
        (specs : List RunSpec) (st : St),
      st.containerIds.length ≤ m →
      ((run_containers L times dry (some m) date specs st).1).containerIds.length ≤ m) ∧
    (∀ (L : Launcher) (times : Nat → Nat) (cfg : Config) (dry : Bool) (m : Nat),
      cfg.max_stored = some m →
      ((runMain L times cfg dry).1).containerIds.length ≤ m) ∧
    ((runMain allOk id cfgRetention false).2 = none ∧
      removesOf ((runMain allOk id cfgRetention false).1).events = ["batch_d1_0"] ∧
      ((runMain allOk id cfgRetention false).1).containerIds =
        ["batch_d2_1", "batch_d3_2"]) := by
  refine ⟨?_, ?_, by decide, by decide, by decide⟩
  · intro L times dry m date specs st h
    exact run_containers_ids_le L times dry m date specs st h
  · intro L times cfg dry m hm
    exact runMain_ids_le L times cfg dry m hm

/-- CLAIM C3 witness: the per-step bound applied to a concrete state that
is at the cap. -/
theorem claim3_retention_cap_witness :
    ((run_containers allOk id false (some 2) "d" [bareSpec "img"]
      ⟨["a", "b"], 0, []⟩).1).containerIds.length ≤ 2 :=
  claim3_retention_cap.1 allOk id false 2 "d" [bareSpec "img"] ⟨["a", "b"], 0, []⟩
    (by decide)

end BatchRun

namespace BatchRun

/-! ## Lemmas: uniqueness of the launch names -/

/-- Appending announcement / wait / removal events does not add launch
names; appending exactly one launch of the freshly-built name while
consuming one `time_ns` value preserves the invariant. -/
theorem namesInv_extend (times : Nat → Nat) (st : St) (date : String)
    (newEvents : List Event) (newIds : List String)
    (hinj : Function.Injective times) (h : NamesInv times st)
    (hnew : launchNamesOf newEvents = [containerName date (times st.nCalls)]) :
    NamesInv times ⟨newIds, st.nCalls + 1, st.events ++ newEvents⟩ := by
  obtain ⟨hb, hnd⟩ := h
  constructor
  · intro n hn
    simp only [launchNamesOf_append, hnew] at hn
    rcases List.mem_append.mp hn with h1 | h1
    · obtain ⟨d, k, hk, he⟩ := hb n h1
      exact ⟨d, k, show k < st.nCalls + 1 by omega, he⟩
    · simp only [List.mem_singleton] at h1
      exact ⟨date, st.nCalls, show st.nCalls < st.nCalls + 1 by omega, h1⟩
  · simp only [launchNamesOf_append, hnew]
    rw [List.nodup_append]
    refine ⟨hnd, List.nodup_singleton _, ?_⟩
    intro n hn
    obtain ⟨d, k, hk, he⟩ := hb n hn
    simp only [List.mem_singleton]
    intro heq
    rw [he] at heq
    have hts := containerName_inj d date (times k) (times st.nCalls) heq
    have := hinj hts
    omega

/-- Events without a launch preserve the invariant at unchanged
`nCalls`. -/
theorem namesInv_no_launch (times : Nat → Nat) (st : St) (newEvents : List Event)
    (h : NamesInv times st) (hnew : launchNamesOf newEvents = []) :
    NamesInv times { st with events := st.events ++ newEvents } := by
  obtain ⟨hb, hnd⟩ := h
  constructor
  · intro n hn
    simp only [launchNamesOf_append, hnew, List.append_nil] at hn
    exact hb n hn
  · simp only [launchNamesOf_append, hnew, List.append_nil]
    exact hnd

/-- One step preserves the launch-name invariant and never decreases the
`time_ns` call count. -/
theorem runSpecStep_names (L : Launcher) (times : Nat → Nat) (dry : Bool)
    (maxC : Option Nat) (date : String) (data : RunSpec) (st : St)
    (hinj : Function.Injective times) (h : NamesInv times st) :
    NamesInv times ((runSpecStep L times dry maxC date data st).1) ∧
      st.nCalls ≤ ((runSpecStep L times dry maxC date data st).1).nCalls := by
  simp only [runSpecStep]
  split_ifs <;>
    first
      | exact ⟨namesInv_no_launch times st _ h (by simp [launchNamesOf]), Nat.le_refl _⟩
      | exact ⟨namesInv_extend times st date _ _ hinj h (by simp [launchNamesOf]),
          Nat.le_succ _⟩

/-- `run_containers` preserves the launch-name invariant. -/
theorem run_containers_names (L : Launcher) (times : Nat → Nat) (dry : Bool)
    (maxC : Option Nat) (date : String) (hinj : Function.Injective times) :
    ∀ (specs : List RunSpec) (st : St), NamesInv times st →
      NamesInv times ((run_containers L times dry maxC date specs st).1) := by
  intro specs
  induction specs with
  | nil =>
    intro st h
    simpa [run_containers] using h
  | cons data t ih =>
    intro st h
    have hstep := runSpecStep_names L times dry maxC date data st hinj h
    cases hs : runSpecStep L times dry maxC date data st with
    | mk st' err =>
      rw [hs] at hstep
      cases err with
      | none =>
        simp only [run_containers, hs]
        exact ih st' hstep.1
      | some e =>
        simpa [run_containers, hs] using hstep.1

/-- The date loop preserves the launch-name invariant. -/
theorem runDates_names (L : Launcher) (times : Nat → Nat) (dry : Bool)
    (maxC : Option Nat) (specs : List RunSpec) (hinj : Function.Injective times) :
    ∀ (ds : List String) (st : St), NamesInv times st →
      NamesInv times ((runDates L times dry maxC specs ds st).1) := by
  intro ds
  induction ds with
  | nil =>
    intro st h
    simpa [runDates] using h
  | cons d ds' ih =>
    intro st h
    have hrc := run_containers_names L times dry maxC d hinj specs st h
    cases hs : run_containers L times dry maxC d specs st with
    | mk st' err =>
      rw [hs] at hrc
      cases err with
      | none =>
        simp only [runDates, hs]
        exact ih st' hrc
      | some e =>
        simpa [runDates, hs] using hrc

/-- The range loop preserves the launch-name invariant. -/
theorem processRanges_names (L : Launcher) (times : Nat → Nat) (dry : Bool)
    (maxC : Option Nat) (specs : List RunSpec) (δ : Delta) (fmt : DateFormat)
    (hinj : Function.Injective times) :
    ∀ (rs : List String) (st : St), NamesInv times st →
      NamesInv times ((processRanges L times dry maxC specs δ fmt rs st).1) := by
  intro rs
  induction rs with
  | nil =>
    intro st h
    simpa [processRanges] using h
  | cons r rs' ih =>
    intro st h
    have hpr : NamesInv times ((processRange L times dry maxC specs δ fmt r st).1) := by
      cases hp : parse_date_range r with
      | error e => simpa [processRange, hp] using h
      | ok pair =>
        obtain ⟨s, e⟩ := pair
        cases hge : generate_dates fmt s e δ with
        | error e2 => simpa [processRange, hp, hge] using h
        | ok ds1 =>
          have := runDates_names L times dry maxC specs hinj ds1 st h
          simpa [processRange, hp, hge] using this
    cases hs : processRange L times dry maxC specs δ fmt r st with
    | mk st' err =>
      rw [hs] at hpr
      cases err with
      | none =>
        simp only [processRanges, hs]
        exact ih st' hpr
      | some e =>
        simpa [processRanges, hs] using hpr

/-- The whole batch satisfies the launch-name invariant. -/
theorem runMain_names (L : Launcher) (times : Nat → Nat) (cfg : Config) (dry : Bool)
    (hinj : Function.Injective times) :
    NamesInv times ((runMain L times cfg dry).1) := by
  have h0 : NamesInv times ⟨[], 0, []⟩ := by
    constructor
    · intro n hn
      simp [launchNamesOf] at hn
    · simp [launchNamesOf]
  have hrd := runDates_names L times dry cfg.max_stored cfg.run_data hinj cfg.dates
    ⟨[], 0, []⟩ h0
  cases hs : runDates L times dry cfg.max_stored cfg.run_data cfg.dates ⟨[], 0, []⟩ with
  | mk st' err =>
    rw [hs] at hrd
    cases err with
    | none =>
      have := processRanges_names L times dry cfg.max_stored cfg.run_data cfg.delta
        cfg.date_format hinj cfg.date_ranges st' hrd
      simpa [runMain, hs] using this
    | some e =>
      simpa [runMain, hs] using hrd

/-- CLAIM C8 counterexample: two tasks with distinct container
identifiers launched on the same date receive the names
`batch_2024-01-01_0` and `batch_2024-01-01_1` — the name passed to the
launcher for the `imgA` task does not contain the task identifier at
all, refuting "the run identifier is composed of the date, the task
identifier, and a high-resolution timestamp". -/
theorem claim8_counterexample :
    launchNamesOf ((runMain allOk id cfgTwoSpecs false).1).events =
      ["batch_2024-01-01_0", "batch_2024-01-01_1"] ∧
    hasSegment ("batch_2024-01-01_0".data) ("imgA".data) = false ∧
    hasSegment ("batch_2024-01-01_1".data) ("imgB".data) = false :=
  ⟨by decide, by decide, by decide⟩

/-- CLAIM C8 (amended): every identifier passed to the launcher has the
form `batch_<date>_<timestamp>` — composed of the date and one consumed
`time_ns` value, without the task identifier — and, provided the
`time_ns` values never repeat, the identifiers are unique across the
whole batch. -/
theorem claim8_run_identifier (cfg : Config) (L : Launcher) (times : Nat → Nat)
    (dry : Bool) (hinj : Function.Injective times) :
    (launchNamesOf ((runMain L times cfg dry).1).events).Nodup ∧
    (∀ n ∈ launchNamesOf ((runMain L times cfg dry).1).events,
      ∃ d t, n = containerName d t) := by
  obtain ⟨hb, hnd⟩ := runMain_names L times cfg dry hinj
  refine ⟨hnd, ?_⟩
  intro n hn
  obtain ⟨d, k, _, he⟩ := hb n hn
  exact ⟨d, times k, he⟩

/-- CLAIM C8 witness: the two-task single-date configuration with the
identity timestamp stream has pairwise-distinct launch names, each of the
`batch_<date>_<timestamp>` form. -/
theorem claim8_run_identifier_witness :
    (launchNamesOf ((runMain allOk id cfgTwoSpecs false).1).events).Nodup ∧
    (∀ n ∈ launchNamesOf ((runMain allOk id cfgTwoSpecs false).1).events,
      ∃ d t, n = containerName d t) :=
  claim8_run_identifier cfgTwoSpecs allOk id false (fun _ _ hab => hab)

end BatchRun
